import Mathlib

/-!
Verification of the configuration front end of mcproxy
(`src/parser/configuration.cpp`): comment stripping, command splitting
with line tracking, the command-processing loop (`run_parser`) and the
interface-resolution pass (`initalize_interfaces`).

Strings are embedded as `List Char`; `std::string::find`, `erase`,
`substr` and `std::getline` are modelled by their documented semantics
on that representation.
-/

namespace Mcproxy

/-- Index of the first occurrence of character `c` in `l`, if any. -/
def findIn (c : Char) : List Char → Option Nat
  | [] => none
  | a :: rest => if a = c then some 0 else (findIn c rest).map (· + 1)

/-- Models `std::string::find(c, start)`: the first index at or after
`start` holding `c` (`none` plays the role of `npos`). -/
def findFrom (c : Char) (s : List Char) (start : Nat) : Option Nat :=
  (findIn c (s.drop start)).map (· + start)

theorem findIn_eq_none (c : Char) (l : List Char) (h : c ∉ l) : findIn c l = none := by
  induction l with
  | nil => rfl
  | cons a rest ih =>
      simp only [List.mem_cons, not_or] at h
      have hac : ¬a = c := fun hc => h.1 hc.symm
      simp [findIn, hac, ih h.2]

theorem findIn_first (c : Char) (a b : List Char) (h : c ∉ a) :
    findIn c (a ++ c :: b) = some a.length := by
  induction a with
  | nil => simp [findIn]
  | cons x rest ih =>
      simp only [List.mem_cons, not_or] at h
      have hac : ¬x = c := fun hc => h.1 hc.symm
      simp [findIn, hac, ih h.2]

theorem findIn_some_lt (c : Char) (l : List Char) (i : Nat)
    (h : findIn c l = some i) : i < l.length := by
  induction l generalizing i with
  | nil => simp [findIn] at h
  | cons a rest ih =>
      by_cases hac : a = c
      · rw [findIn, if_pos hac] at h
        cases h
        simp
      · rw [findIn, if_neg hac] at h
        rw [Option.map_eq_some'] at h
        obtain ⟨j, hj, hji⟩ := h
        have := ih j hj
        simp only [List.length_cons]
        omega

theorem findFrom_some (c : Char) (s : List Char) (start i : Nat)
    (h : findFrom c s start = some i) : start ≤ i ∧ i < s.length := by
  rw [findFrom, Option.map_eq_some'] at h
  obtain ⟨j, hj, hji⟩ := h
  have hlt := findIn_some_lt c (s.drop start) j hj
  simp only [List.length_drop] at hlt
  omega

/-- The comment-erasing loop of `configuration::delete_comments`:
`cc` is the current result of `find('#', …)`; while a marker exists,
look for the next newline from `cc + 1`; with no newline, return
`substr(0, cc)`; otherwise `erase(cc, eoc - cc)` (keep the prefix
before `cc` and the suffix from `eoc`), and re-scan for `'#'` from
position `cc` of the shortened string. -/
def dcAux (s : List Char) (ccOpt : Option Nat) : List Char :=
  match ccOpt with
  | none => s
  | some cc =>
    match h : findFrom '\n' s (cc + 1) with
    | none => s.take cc
    | some eoc =>
      dcAux (s.take cc ++ s.drop eoc) (findFrom '#' (s.take cc ++ s.drop eoc) cc)
termination_by s.length
decreasing_by
  have hb := findFrom_some '\n' s (cc + 1) eoc h
  simp only [List.length_append, List.length_take, List.length_drop]
  omega

/-- Embedding of `configuration::delete_comments`. -/
def delete_comments (s : List Char) : List Char :=
  dcAux s (findFrom '#' s 0)

/-- Clean recursive characterization of the same computation, used to
carry the proofs; `delete_comments_eq_strip` relates the two. -/
def stripComments : List Char → List Char
  | [] => []
  | c :: rest =>
    if c = '#' then stripComments (rest.dropWhile (· != '\n'))
    else c :: stripComments rest
termination_by l => l.length
decreasing_by
  · have := (List.dropWhile_sublist (l := rest) (p := (· != '\n'))).length_le
    simp
    omega
  · simp

theorem dcAux_none (s : List Char) : dcAux s none = s := by
  conv_lhs => unfold dcAux

theorem dcAux_eoc_none (s : List Char) (cc : Nat)
    (h : findFrom '\n' s (cc + 1) = none) : dcAux s (some cc) = s.take cc := by
  conv_lhs => unfold dcAux
  split
  · rfl
  · simp_all

theorem dcAux_eoc_some (s : List Char) (cc eoc : Nat)
    (h : findFrom '\n' s (cc + 1) = some eoc) :
    dcAux s (some cc) =
      dcAux (s.take cc ++ s.drop eoc) (findFrom '#' (s.take cc ++ s.drop eoc) cc) := by
  conv_lhs => unfold dcAux
  split
  · simp_all
  · simp_all

theorem stripComments_nil : stripComments [] = [] := by
  conv_lhs => unfold stripComments

theorem stripComments_cons_ne (c : Char) (rest : List Char) (h : ¬c = '#') :
    stripComments (c :: rest) = c :: stripComments rest := by
  conv_lhs => unfold stripComments
  simp [h]

theorem stripComments_cons_hash (rest : List Char) :
    stripComments ('#' :: rest) = stripComments (rest.dropWhile (· != '\n')) := by
  conv_lhs => unfold stripComments
  simp

theorem stripComments_no_hash (l : List Char) (h : '#' ∉ l) : stripComments l = l := by
  induction l with
  | nil => exact stripComments_nil
  | cons a rest ih =>
      simp only [List.mem_cons, not_or] at h
      rw [stripComments_cons_ne a rest (fun hc => h.1 hc.symm), ih h.2]

theorem stripComments_append_no_hash (a x : List Char) (h : '#' ∉ a) :
    stripComments (a ++ x) = a ++ stripComments x := by
  induction a with
  | nil => simp
  | cons c rest ih =>
      simp only [List.mem_cons, not_or] at h
      rw [List.cons_append, stripComments_cons_ne _ _ (fun hc => h.1 hc.symm), ih h.2,
        List.cons_append]

theorem dropWhile_no_nl (b : List Char) (h : '\n' ∉ b) :
    b.dropWhile (· != '\n') = [] := by
  induction b with
  | nil => rfl
  | cons c rest ih =>
      simp only [List.mem_cons, not_or] at h
      have hc : c ≠ '\n' := fun hc => h.1 hc.symm
      simp [List.dropWhile_cons, hc, ih h.2]

theorem dropWhile_first_nl (b1 b2 : List Char) (h : '\n' ∉ b1) :
    (b1 ++ '\n' :: b2).dropWhile (· != '\n') = '\n' :: b2 := by
  induction b1 with
  | nil => simp [List.dropWhile_cons]
  | cons c rest ih =>
      simp only [List.mem_cons, not_or] at h
      have hc : c ≠ '\n' := fun hc => h.1 hc.symm
      simp [List.dropWhile_cons, hc, ih h.2]

theorem mem_split_first {c : Char} {l : List Char} (h : c ∈ l) :
    ∃ a b, l = a ++ c :: b ∧ c ∉ a := by
  induction l with
  | nil => simp at h
  | cons x rest ih =>
      by_cases hx : x = c
      · exact ⟨[], rest, by simp [hx], by simp⟩
      · have hc : c ∈ rest := by
          rcases List.mem_cons.mp h with h1 | h1
          · exact absurd h1.symm hx
          · exact h1
        obtain ⟨a, b, rfl, ha⟩ := ih hc
        refine ⟨x :: a, b, by simp, ?_⟩
        simp only [List.mem_cons, not_or]
        exact ⟨fun hh => hx hh.symm, ha⟩

theorem dcAux_no_hash (pre post : List Char) (hpost : '#' ∉ post) :
    dcAux (pre ++ post) (findFrom '#' (pre ++ post) pre.length) =
      pre ++ stripComments post := by
  have h1 : findFrom '#' (pre ++ post) pre.length = none := by
    rw [findFrom, List.drop_left, findIn_eq_none _ _ hpost]
    rfl
  rw [h1, dcAux_none, stripComments_no_hash _ hpost]

theorem dcAux_eq_strip (n : Nat) : ∀ post : List Char, post.length ≤ n →
    ∀ pre : List Char,
    dcAux (pre ++ post) (findFrom '#' (pre ++ post) pre.length) =
      pre ++ stripComments post := by
  induction n with
  | zero =>
      intro post hlen pre
      have hp : post = [] := by cases post <;> simp_all
      subst hp
      exact dcAux_no_hash pre [] (by simp)
  | succ n ih =>
      intro post hlen pre
      by_cases hmem : '#' ∈ post
      · obtain ⟨a, b, rfl, ha⟩ := mem_split_first hmem
        have h2 : findFrom '#' (pre ++ (a ++ '#' :: b)) pre.length =
            some (a.length + pre.length) := by
          rw [findFrom, List.drop_left, findIn_first _ _ _ ha]
          rfl
        rw [h2]
        by_cases hnl : '\n' ∈ b
        · obtain ⟨b1, b2, rfl, hb1⟩ := mem_split_first hnl
          have hsplit : pre ++ (a ++ '#' :: (b1 ++ '\n' :: b2)) =
              (pre ++ a ++ '#' :: b1) ++ '\n' :: b2 := by simp
          have hlen3 : (pre ++ a ++ '#' :: b1).length =
              b1.length + (a.length + pre.length + 1) := by
            simp [List.length_append]
            omega
          have hsplit2 : pre ++ (a ++ '#' :: (b1 ++ '\n' :: b2)) =
              (pre ++ a ++ ['#']) ++ (b1 ++ '\n' :: b2) := by simp
          have hlen1 : (pre ++ a ++ ['#']).length = a.length + pre.length + 1 := by
            simp [List.length_append]
            omega
          have h3 : findFrom '\n' (pre ++ (a ++ '#' :: (b1 ++ '\n' :: b2)))
              (a.length + pre.length + 1) =
              some (b1.length + (a.length + pre.length + 1)) := by
            rw [findFrom, hsplit2, List.drop_left' hlen1, findIn_first _ _ _ hb1]
            rfl
          rw [dcAux_eoc_some _ _ _ h3]
          have htake : (pre ++ (a ++ '#' :: (b1 ++ '\n' :: b2))).take
              (a.length + pre.length) = pre ++ a := by
            have hpa : (pre ++ a).length = a.length + pre.length := by
              simp [List.length_append]
              omega
            have : pre ++ (a ++ '#' :: (b1 ++ '\n' :: b2)) =
                (pre ++ a) ++ '#' :: (b1 ++ '\n' :: b2) := by simp
            rw [this, List.take_left' hpa]
          have hdrop : (pre ++ (a ++ '#' :: (b1 ++ '\n' :: b2))).drop
              (b1.length + (a.length + pre.length + 1)) = '\n' :: b2 := by
            rw [hsplit, List.drop_left' hlen3]
          rw [htake, hdrop]
          have hpa : (pre ++ a).length = a.length + pre.length := by
            simp [List.length_append]
            omega
          rw [← hpa]
          have hlen4 : ('\n' :: b2).length ≤ n := by
            simp only [List.length_append, List.length_cons] at hlen ⊢
            omega
          rw [ih ('\n' :: b2) hlen4 (pre ++ a)]
          rw [stripComments_append_no_hash a _ ha, stripComments_cons_hash,
            dropWhile_first_nl _ _ hb1]
          simp
        · have hsplit : pre ++ (a ++ '#' :: b) = (pre ++ a ++ ['#']) ++ b := by simp
          have hlen1 : (pre ++ a ++ ['#']).length = a.length + pre.length + 1 := by
            simp [List.length_append]
            omega
          have h3 : findFrom '\n' (pre ++ (a ++ '#' :: b))
              (a.length + pre.length + 1) = none := by
            rw [findFrom, hsplit, List.drop_left' hlen1, findIn_eq_none _ _ hnl]
            rfl
          rw [dcAux_eoc_none _ _ h3]
          have hpa : (pre ++ a).length = a.length + pre.length := by
            simp [List.length_append]
            omega
          have : pre ++ (a ++ '#' :: b) = (pre ++ a) ++ '#' :: b := by simp
          rw [this, List.take_left' hpa]
          rw [stripComments_append_no_hash a _ ha, stripComments_cons_hash,
            dropWhile_no_nl _ hnl, stripComments_nil]
          simp
      · exact dcAux_no_hash pre post hmem

/-- Equivalence: `delete_comments` computes the same result as the structural
recursion `stripComments`. -/
theorem delete_comments_eq_strip (s : List Char) :
    delete_comments s = stripComments s := by
  have := dcAux_eq_strip s.length s le_rfl []
  simpa [delete_comments] using this

theorem stripComments_hash_free (s : List Char) : '#' ∉ stripComments s := by
  induction s using stripComments.induct with
  | case1 => simp [stripComments_nil]
  | case2 rest ih =>
      rw [stripComments_cons_hash]
      exact ih
  | case3 c rest h ih =>
      rw [stripComments_cons_ne _ _ h]
      simp only [List.mem_cons, not_or]
      exact ⟨fun hh => h hh.symm, ih⟩

theorem count_dropWhile_nl (l : List Char) :
    List.count '\n' (l.dropWhile (· != '\n')) = List.count '\n' l := by
  induction l with
  | nil => rfl
  | cons c rest ih =>
      by_cases hc : c = '\n'
      · subst hc
        simp [List.dropWhile_cons]
      · simp [List.dropWhile_cons, hc, ih, List.count_cons]

theorem stripComments_count_nl (s : List Char) :
    List.count '\n' (stripComments s) = List.count '\n' s := by
  induction s using stripComments.induct with
  | case1 => simp [stripComments_nil]
  | case2 rest ih =>
      rw [stripComments_cons_hash, ih, count_dropWhile_nl]
      simp [List.count_cons]
  | case3 c rest h ih =>
      rw [stripComments_cons_ne _ _ h]
      simp [List.count_cons, ih]

/-- Claim C2: comment deletion removes exactly the span from each marker
up to but not including the next line terminator (the marker is removed,
the terminator is kept), removes everything from a marker with no
following terminator to the end of the input, keeps every non-marker
character, and handles a marker adjacent to a removed comment (the span
`b` below may itself contain markers). These equations determine
`delete_comments` on every input. -/
theorem claim_C2 :
    (delete_comments [] = []) ∧
    (∀ (c : Char) (s : List Char), ¬c = '#' →
      delete_comments (c :: s) = c :: delete_comments s) ∧
    (∀ (b s : List Char), '\n' ∉ b →
      delete_comments ('#' :: (b ++ '\n' :: s)) = '\n' :: delete_comments s) ∧
    (∀ b : List Char, '\n' ∉ b → delete_comments ('#' :: b) = []) := by
  refine ⟨?_, ?_, ?_, ?_⟩
  · rw [delete_comments_eq_strip, stripComments_nil]
  · intro c s hc
    rw [delete_comments_eq_strip, delete_comments_eq_strip, stripComments_cons_ne _ _ hc]
  · intro b s hb
    rw [delete_comments_eq_strip, delete_comments_eq_strip, stripComments_cons_hash,
      dropWhile_first_nl _ _ hb, stripComments_cons_ne _ _ (by decide)]
  · intro b hb
    rw [delete_comments_eq_strip, stripComments_cons_hash, dropWhile_no_nl _ hb,
      stripComments_nil]

/-- Witness for C2 at concrete inputs, including an adjacent-marker
comment body. -/
theorem claim_C2_witness :
    delete_comments ('a' :: []) = 'a' :: delete_comments [] ∧
    delete_comments ('#' :: (['#'] ++ '\n' :: ['y'])) = '\n' :: delete_comments ['y'] ∧
    delete_comments ('#' :: ['x']) = [] :=
  ⟨claim_C2.2.1 'a' [] (by decide),
   claim_C2.2.2.1 ['#'] ['y'] (by decide),
   claim_C2.2.2.2 ['x'] (by decide)⟩

/-- Claim C3: comment deletion is idempotent: applying `delete_comments`
to its own output returns the output unchanged. -/
theorem claim_C3 (s : List Char) :
    delete_comments (delete_comments s) = delete_comments s := by
  rw [delete_comments_eq_strip, delete_comments_eq_strip,
    stripComments_no_hash _ (stripComments_hash_free s)]

/-- Claim C8: `delete_comments` preserves the number of line-terminator
characters: the output has exactly as many newline characters as the
input. -/
theorem claim_C8 (s : List Char) :
    List.count '\n' (delete_comments s) = List.count '\n' s := by
  rw [delete_comments_eq_strip, stripComments_count_nl]

/-- Embedding of `std::isspace` in the default locale (the characters the trim
helpers remove). -/
def is_space (c : Char) : Bool :=
  c = ' ' || c = '\t' || c = '\n' || c = '\x0b' || c = '\x0c' || c = '\r'

/-- Embedding of `ltrim`: erase leading whitespace. -/
def ltrim (s : List Char) : List Char := s.dropWhile is_space

/-- Embedding of `rtrim`: erase trailing whitespace. -/
def rtrim (s : List Char) : List Char := (s.reverse.dropWhile is_space).reverse

/-- Embedding of `trim`: `ltrim(rtrim(s))`. -/
def trim (s : List Char) : List Char := ltrim (rtrim s)

/-- Embedding of `count_chars`: the number of occurrences of `comp` in `s`. -/
def count_chars (s : List Char) (comp : Char) : Nat := s.count comp

/-- The `std::getline(ss, item, ';')` loop of
`configuration::separate_commands`: each round extracts the characters
before the next separator (discarding the separator), counts newlines
before and after `ltrim`, `rtrim`s, keeps the non-empty items with line
number `current_line + (line_count_before - line_count_after)`, and
advances `current_line` by `line_count_before`; `getline` fails once no
characters remain. -/
def separate_commands_aux : List Char → Nat → List (Nat × List Char)
  | [], _ => []
  | c :: cs, current_line =>
    let item := (c :: cs).takeWhile (· != ';')
    let rest := ((c :: cs).dropWhile (· != ';')).tail
    let line_count_before := count_chars item '\n'
    let item1 := ltrim item
    let line_count_after := count_chars item1 '\n'
    let item2 := rtrim item1
    (if item2.isEmpty then [] else
      [(current_line + (line_count_before - line_count_after), item2)]) ++
      separate_commands_aux rest (current_line + line_count_before)
termination_by s _ => s.length
decreasing_by
  have := (List.dropWhile_sublist (l := c :: cs) (p := (· != ';'))).length_le
  simp only [List.length_tail]
  simp only [List.length_cons] at this ⊢
  omega

/-- Embedding of `configuration::separate_commands` (`current_line` starts at 1). -/
def separate_commands (s : List Char) : List (Nat × List Char) :=
  separate_commands_aux s 1

/-- The `;`-separated segments of the input, in order (the plain
mathematical split, used by the specification's description). -/
def splitSemi (s : List Char) : List (List Char) :=
  match h : s.dropWhile (· != ';') with
  | [] => [s]
  | _ :: t => s.takeWhile (· != ';') :: splitSemi t
termination_by s.length
decreasing_by
  have hle := (List.dropWhile_sublist (l := s) (p := (· != ';'))).length_le
  rw [h] at hle
  simp only [List.length_cons] at hle
  omega

/-- The specification's description of command splitting: split on the
statement terminator; trim leading/trailing whitespace from each
segment; discard empty segments; a kept segment's line number is the
running line counter plus the number of leading newline characters
trimmed away from it; the counter advances by the total newline count
of the raw untrimmed segment. -/
def spec_split_commands_aux : List (List Char) → Nat → List (Nat × List Char)
  | [], _ => []
  | seg :: rest, current_line =>
    let trimmed := rtrim (ltrim seg)
    let lead_nl := count_chars (seg.takeWhile is_space) '\n'
    (if trimmed.isEmpty then [] else [(current_line + lead_nl, trimmed)]) ++
      spec_split_commands_aux rest (current_line + count_chars seg '\n')

/-- The specification's `split_commands`, with the counter starting
at 1. -/
def spec_split_commands (s : List Char) : List (Nat × List Char) :=
  spec_split_commands_aux (splitSemi s) 1

theorem separate_commands_aux_nil (cur : Nat) : separate_commands_aux [] cur = [] := by
  conv_lhs => unfold separate_commands_aux

theorem separate_commands_aux_cons (c : Char) (cs : List Char) (cur : Nat) :
    separate_commands_aux (c :: cs) cur =
      (if (rtrim (ltrim ((c :: cs).takeWhile (· != ';')))).isEmpty then [] else
        [(cur + (count_chars ((c :: cs).takeWhile (· != ';')) '\n' -
          count_chars (ltrim ((c :: cs).takeWhile (· != ';'))) '\n'),
          rtrim (ltrim ((c :: cs).takeWhile (· != ';'))))]) ++
      separate_commands_aux (((c :: cs).dropWhile (· != ';')).tail)
        (cur + count_chars ((c :: cs).takeWhile (· != ';')) '\n') := by
  conv_lhs => unfold separate_commands_aux

theorem splitSemi_nil_case (s : List Char) (h : s.dropWhile (· != ';') = []) :
    splitSemi s = [s] := by
  conv_lhs => unfold splitSemi
  split
  · rfl
  · simp_all

theorem splitSemi_cons_case (s : List Char) (c : Char) (t : List Char)
    (h : s.dropWhile (· != ';') = c :: t) :
    splitSemi s = s.takeWhile (· != ';') :: splitSemi t := by
  conv_lhs => unfold splitSemi
  split
  · simp_all
  · simp_all

theorem takeWhile_eq_self_of_dropWhile_nil {p : Char → Bool} {s : List Char}
    (h : s.dropWhile p = []) : s.takeWhile p = s := by
  conv_rhs => rw [← List.takeWhile_append_dropWhile (p := p) (l := s)]
  rw [h, List.append_nil]

theorem lead_nl_eq (item : List Char) :
    count_chars item '\n' - count_chars (ltrim item) '\n' =
      count_chars (item.takeWhile is_space) '\n' := by
  have h1 : count_chars item '\n' =
      count_chars (item.takeWhile is_space) '\n' + count_chars (ltrim item) '\n' := by
    rw [count_chars, count_chars, count_chars, ltrim]
    conv_lhs => rw [← List.takeWhile_append_dropWhile (p := is_space) (l := item)]
    rw [List.count_append]
  omega

theorem separate_commands_aux_eq_spec (n : Nat) : ∀ s : List Char, s.length ≤ n →
    ∀ cur : Nat,
    separate_commands_aux s cur = spec_split_commands_aux (splitSemi s) cur := by
  induction n with
  | zero =>
      intro s hlen cur
      have hs : s = [] := by cases s <;> simp_all
      subst hs
      rw [separate_commands_aux_nil, splitSemi_nil_case [] rfl]
      rfl
  | succ n ih =>
      intro s hlen cur
      cases s with
      | nil =>
          rw [separate_commands_aux_nil, splitSemi_nil_case [] rfl]
          rfl
      | cons c cs =>
          rw [separate_commands_aux_cons]
          cases hdw : (c :: cs).dropWhile (· != ';') with
          | nil =>
              simp only [List.tail_nil]
              rw [splitSemi_nil_case _ hdw, separate_commands_aux_nil,
                takeWhile_eq_self_of_dropWhile_nil hdw, lead_nl_eq]
              simp [spec_split_commands_aux]
          | cons d t =>
              simp only [List.tail_cons]
              rw [splitSemi_cons_case _ _ _ hdw]
              simp only [spec_split_commands_aux]
              rw [lead_nl_eq]
              have ht : t.length ≤ n := by
                have hle :=
                  (List.dropWhile_sublist (l := c :: cs) (p := (· != ';'))).length_le
                rw [hdw] at hle
                simp only [List.length_cons] at hle hlen
                omega
              rw [ih t ht]

/-- The code's splitter agrees with the specification's description on
every input. -/
theorem separate_commands_eq_spec (s : List Char) :
    separate_commands s = spec_split_commands s :=
  separate_commands_aux_eq_spec s.length s le_rfl 1

/-- Claim C4: on every input, `separate_commands` returns exactly the
`;`-separated segments that are non-empty after trimming, trimmed, in
input order, each paired with the running line counter (starting at 1)
plus the number of leading newline characters trimmed from that
segment, the counter advancing by the total newline count of each raw
untrimmed segment — that is, it equals the specification-side
`spec_split_commands`. -/
theorem claim_C4 (s : List Char) : separate_commands s = spec_split_commands s :=
  separate_commands_eq_spec s

theorem lead_nl_le (seg : List Char) :
    count_chars (seg.takeWhile is_space) '\n' ≤ count_chars seg '\n' := by
  have h1 : count_chars seg '\n' =
      count_chars (seg.takeWhile is_space) '\n' + count_chars (ltrim seg) '\n' := by
    rw [count_chars, count_chars, count_chars, ltrim]
    conv_lhs => rw [← List.takeWhile_append_dropWhile (p := is_space) (l := seg)]
    rw [List.count_append]
  omega

theorem spec_aux_line_ge (segs : List (List Char)) : ∀ cur : Nat,
    ∀ p ∈ spec_split_commands_aux segs cur, cur ≤ p.1 := by
  induction segs with
  | nil =>
      intro cur p hp
      simp [spec_split_commands_aux] at hp
  | cons seg rest ih =>
      intro cur p hp
      simp only [spec_split_commands_aux, List.mem_append] at hp
      rcases hp with hp | hp
      · split at hp
        · simp at hp
        · simp only [List.mem_singleton] at hp
          subst hp
          exact Nat.le_add_right _ _
      · have := ih (cur + count_chars seg '\n') p hp
        omega

theorem spec_aux_pairwise (segs : List (List Char)) : ∀ cur : Nat,
    List.Pairwise (fun p q : Nat × List Char => p.1 ≤ q.1)
      (spec_split_commands_aux segs cur) := by
  induction segs with
  | nil =>
      intro cur
      simp [spec_split_commands_aux]
  | cons seg rest ih =>
      intro cur
      simp only [spec_split_commands_aux]
      split
      · simpa using ih _
      · rw [List.singleton_append]
        refine List.pairwise_cons.mpr ⟨?_, ih _⟩
        intro q hq
        have h1 := spec_aux_line_ge rest (cur + count_chars seg '\n') q hq
        have h2 := lead_nl_le seg
        simp only
        omega

theorem spec_aux_snd_sublist (segs : List (List Char)) : ∀ cur : Nat,
    List.Sublist ((spec_split_commands_aux segs cur).map Prod.snd)
      (segs.map (fun seg => rtrim (ltrim seg))) := by
  induction segs with
  | nil =>
      intro cur
      simp [spec_split_commands_aux]
  | cons seg rest ih =>
      intro cur
      simp only [spec_split_commands_aux, List.map_cons]
      split
      · rw [List.nil_append]
        exact List.Sublist.cons _ (ih _)
      · rw [List.singleton_append, List.map_cons]
        exact List.Sublist.cons₂ _ (ih _)

/-- Claim C9: every line number produced by `separate_commands` is at
least 1; the line numbers are nondecreasing in output order; and the
command texts appear in the output in the same relative order as their
segments appear in the input (they form a sublist of the trimmed
segment sequence). -/
theorem claim_C9 (s : List Char) :
    (∀ p ∈ separate_commands s, 1 ≤ p.1) ∧
    List.Pairwise (fun p q : Nat × List Char => p.1 ≤ q.1) (separate_commands s) ∧
    List.Sublist ((separate_commands s).map Prod.snd)
      ((splitSemi s).map (fun seg => rtrim (ltrim seg))) := by
  rw [separate_commands_eq_spec]
  exact ⟨spec_aux_line_ge _ 1, spec_aux_pairwise _ 1, spec_aux_snd_sublist _ 1⟩

/-- Witness for C9: a concrete command produced by the splitter, and
its line number bounded through the theorem. -/
theorem claim_C9_witness :
    (1, ['a']) ∈ separate_commands ['a'] ∧ 1 ≤ ((1, ['a']) : Nat × List Char).1 := by
  have hmem : (1, ['a']) ∈ separate_commands ['a'] := by
    rw [separate_commands, separate_commands_aux_cons,
      show (List.dropWhile (· != ';') ['a']).tail = ([] : List Char) from rfl,
      separate_commands_aux_nil]
    decide
  exact ⟨hmem, (claim_C9 ['a']).1 (1, ['a']) hmem⟩

/-- The `group_mem_protocol` enumeration (its definition is outside the
given translation unit; only the values matter here). `IGMPv3` is the
constructor-initializer default of `configuration::m_gmp`. -/
inductive group_mem_protocol where
  | MLDv1
  | MLDv2
  | IGMPv1
  | IGMPv2
  | IGMPv3
deriving DecidableEq

/-- Modelled from the spec: an `InstanceDefinition` — an instance name
together with the ordered downstream and upstream interface-name
lists (the filter details of each interface play no role in the claims
settled here). -/
structure instance_definition where
  instance_name : String
  downstreams : List String
  upstreams : List String
deriving DecidableEq

/-- Modelled from the spec: the outcome of the `parser` class on one
command — a tagged union over the four command kinds of §4.2 (the
parser holds no cross-command state). Table contents are abstracted to
a numeric payload; a rule binding carries the table names it
references. `unknown` stands for a command matching no form. -/
inductive parsed_cmd where
  | protocol (p : group_mem_protocol)
  | instance_def (i : instance_definition)
  | table (name : String) (contents : Nat)
  | rule_binding (inst_name : String) (table_refs : List String)
  | unknown
deriving DecidableEq

/-- The mutable compilation state of `configuration`: `m_gmp`,
`m_global_table_set` (an insertion-ordered list of uniquely named
tables) and `m_inst_def_set`. -/
structure conf_state where
  gmp : group_mem_protocol
  tables : List (String × Nat)
  instances : List instance_definition
deriving DecidableEq

/-- The constructor-initialized state: `m_gmp(IGMPv3)` (the source
comment reads `default setting`), empty table set, empty instance
set. -/
def initial_state : conf_state :=
  { gmp := .IGMPv3, tables := [], instances := [] }

/-- One iteration of the `switch` in `configuration::run_parser`.
`PT_PROTOCOL` assigns `m_gmp = p.parse_group_mem_proto()` (a plain
assignment). `PT_TABLE` inserts into the table set and throws
`"failed to parse configfile"` when the name already exists
(`global_table_set::insert` modelled from the spec: fails on name
collision). `PT_INSTANCE_DEFINITION` and `PT_INTERFACE_RULE_BINDING`
are modelled from the spec: the former fails on an instance-name
collision, the latter only reads the sets (it fails on an unresolved
table or instance reference and attaches filter rules otherwise; the
attachment itself does not change the components modelled here). -/
def run_parser_step (st : conf_state) (c : parsed_cmd) : Except String conf_state :=
  match c with
  | .protocol p => .ok { st with gmp := p }
  | .instance_def i =>
      if st.instances.any (fun j => j.instance_name == i.instance_name) then
        .error "failed to add instance definition"
      else
        .ok { st with instances := st.instances ++ [i] }
  | .table name contents =>
      if st.tables.any (fun t => t.1 == name) then
        .error "failed to parse configfile"
      else
        .ok { st with tables := st.tables ++ [(name, contents)] }
  | .rule_binding inst_name table_refs =>
      if table_refs.all (fun t => st.tables.any (fun u => u.1 == t)) &&
          st.instances.any (fun j => j.instance_name == inst_name) then
        .ok st
      else
        .error "failed to parse interface rule binding"
  | .unknown => .error "unkown parser type"

/-- The command loop of `configuration::run_parser`: process the parsed
commands in order, stopping at the first thrown error. -/
def run_parser_loop (st : conf_state) : List parsed_cmd → Except String conf_state
  | [] => .ok st
  | c :: rest =>
      match run_parser_step st c with
      | .error e => .error e
      | .ok st1 => run_parser_loop st1 rest

theorem run_parser_cons_ok (st st1 : conf_state) (c : parsed_cmd) (rest : List parsed_cmd)
    (h : run_parser_step st c = .ok st1) :
    run_parser_loop st (c :: rest) = run_parser_loop st1 rest := by
  simp only [run_parser_loop, h]

theorem run_parser_cons_err (st : conf_state) (c : parsed_cmd) (rest : List parsed_cmd)
    (e : String) (h : run_parser_step st c = .error e) :
    run_parser_loop st (c :: rest) = .error e := by
  simp only [run_parser_loop, h]

theorem run_parser_append_ok (xs : List parsed_cmd) : ∀ (st st1 : conf_state)
    (ys : List parsed_cmd), run_parser_loop st xs = .ok st1 →
    run_parser_loop st (xs ++ ys) = run_parser_loop st1 ys := by
  induction xs with
  | nil =>
      intro st st1 ys h
      cases h
      rfl
  | cons c rest ih =>
      intro st st1 ys h
      cases hstep : run_parser_step st c with
      | error e =>
          rw [run_parser_cons_err _ _ _ _ hstep] at h
          exact absurd h (by simp)
      | ok st2 =>
          rw [run_parser_cons_ok _ _ _ _ hstep] at h
          rw [List.cons_append, run_parser_cons_ok _ _ _ _ hstep]
          exact ih st2 st1 ys h

/-- The protocol value that one command leaves in `m_gmp`:
`PT_PROTOCOL` assigns, every other command keeps it. -/
def protocol_update (g : group_mem_protocol) : parsed_cmd → group_mem_protocol
  | .protocol p => p
  | _ => g

/-- The protocol value in effect after a command sequence: the last
declared one, or the default when none is declared. -/
def effective_protocol (d : group_mem_protocol) (cmds : List parsed_cmd) :
    group_mem_protocol :=
  cmds.foldl protocol_update d

theorem run_parser_step_gmp (st st2 : conf_state) (c : parsed_cmd)
    (h : run_parser_step st c = .ok st2) : st2.gmp = protocol_update st.gmp c := by
  cases c with
  | protocol p =>
      cases h
      rfl
  | instance_def i =>
      simp only [run_parser_step] at h
      split at h
      · simp at h
      · cases h
        rfl
  | table name contents =>
      simp only [run_parser_step] at h
      split at h
      · simp at h
      · cases h
        rfl
  | rule_binding a b =>
      simp only [run_parser_step] at h
      split at h
      · cases h
        rfl
      · simp at h
  | unknown =>
      simp only [run_parser_step] at h
      simp at h

/-- Claim C1 counterexample: a script declaring the protocol twice does
not fail — `run_parser_loop` succeeds, and the second declared value has
silently overwritten the first (`IGMPv2` is gone, `IGMPv1` is the final
value). The `PT_PROTOCOL` case is a plain assignment with no
duplicate-definition check. -/
theorem claim_C1_counterexample :
    run_parser_loop initial_state [.protocol .IGMPv2, .protocol .IGMPv1] =
      .ok { gmp := .IGMPv1, tables := [], instances := [] } ∧
    group_mem_protocol.IGMPv1 ≠ group_mem_protocol.IGMPv2 :=
  ⟨rfl, by decide⟩

/-- Claim C1 amended: a later Protocol Declaration silently overwrites
the earlier value; whenever `run_parser_loop` succeeds, the resulting
protocol is the last declared one (the initial default when none is
declared). -/
theorem claim_C1_amended : ∀ (cmds : List parsed_cmd) (st st1 : conf_state),
    run_parser_loop st cmds = .ok st1 → st1.gmp = effective_protocol st.gmp cmds := by
  intro cmds
  induction cmds with
  | nil =>
      intro st st1 h
      cases h
      rfl
  | cons c rest ih =>
      intro st st1 h
      cases hstep : run_parser_step st c with
      | error e =>
          rw [run_parser_cons_err _ _ _ _ hstep] at h
          exact absurd h (by simp)
      | ok st2 =>
          rw [run_parser_cons_ok _ _ _ _ hstep] at h
          have hg := run_parser_step_gmp st st2 c hstep
          rw [effective_protocol, List.foldl_cons, ← hg]
          exact ih st2 st1 h

/-- Witness for the amended C1: two protocol declarations, the last one
effective. -/
theorem claim_C1_amended_witness :
    ({ gmp := .IGMPv1, tables := [], instances := [] } : conf_state).gmp =
      effective_protocol initial_state.gmp [.protocol .IGMPv2, .protocol .IGMPv1] :=
  claim_C1_amended [.protocol .IGMPv2, .protocol .IGMPv1] initial_state _ rfl

theorem run_parser_step_table_mem (st st2 : conf_state) (c : parsed_cmd)
    (p : String × Nat) (hmem : p ∈ st.tables) (h : run_parser_step st c = .ok st2) :
    p ∈ st2.tables := by
  cases c with
  | protocol q =>
      cases h
      exact hmem
  | instance_def i =>
      simp only [run_parser_step] at h
      split at h
      · simp at h
      · cases h
        exact hmem
  | table name contents =>
      simp only [run_parser_step] at h
      split at h
      · simp at h
      · cases h
        exact List.mem_append_left _ hmem
  | rule_binding a b =>
      simp only [run_parser_step] at h
      split at h
      · cases h
        exact hmem
      · simp at h
  | unknown =>
      simp only [run_parser_step] at h
      simp at h

theorem run_parser_table_mem (cmds : List parsed_cmd) : ∀ (st st2 : conf_state)
    (p : String × Nat), p ∈ st.tables → run_parser_loop st cmds = .ok st2 →
    p ∈ st2.tables := by
  induction cmds with
  | nil =>
      intro st st2 p hm h
      cases h
      exact hm
  | cons c rest ih =>
      intro st st2 p hm h
      cases hstep : run_parser_step st c with
      | error e =>
          rw [run_parser_cons_err _ _ _ _ hstep] at h
          exact absurd h (by simp)
      | ok st1 =>
          rw [run_parser_cons_ok _ _ _ _ hstep] at h
          exact ih st1 st2 p (run_parser_step_table_mem st st1 c p hm hstep) h

theorem step_table_inserts (st st2 : conf_state) (n : String) (c1 : Nat)
    (h : run_parser_step st (.table n c1) = .ok st2) : (n, c1) ∈ st2.tables := by
  simp only [run_parser_step] at h
  split at h
  · simp at h
  · cases h
    exact List.mem_append_right _ (by simp)

theorem step_table_dup (st : conf_state) (n : String) (c1 c2 : Nat)
    (hmem : (n, c1) ∈ st.tables) :
    run_parser_step st (.table n c2) = .error "failed to parse configfile" := by
  have hc : st.tables.any (fun t => t.1 == n) = true :=
    List.any_eq_true.mpr ⟨(n, c1), hmem, by simp⟩
  simp [run_parser_step, hc]

/-- Claim C5: once a table named `n` has been inserted and any further
commands have been processed successfully, processing a second table
definition with the same name fails with the duplicate-definition error
`"failed to parse configfile"` (logged as "table already exists"), the
first table's entry is still present unchanged in the table set at that
point, and a script containing both definitions can never compile
successfully. -/
theorem claim_C5 (st st1 st2 st3 : conf_state) (pre mid post : List parsed_cmd)
    (n : String) (c1 c2 : Nat)
    (h0 : run_parser_loop st pre = .ok st1)
    (h1 : run_parser_step st1 (.table n c1) = .ok st2)
    (h2 : run_parser_loop st2 mid = .ok st3) :
    (n, c1) ∈ st3.tables ∧
    run_parser_step st3 (.table n c2) = .error "failed to parse configfile" ∧
    ∀ st4 : conf_state,
      run_parser_loop st (pre ++ (.table n c1 :: (mid ++ (.table n c2 :: post)))) ≠
        .ok st4 := by
  have hm2 : (n, c1) ∈ st2.tables := step_table_inserts _ _ _ _ h1
  have hm3 : (n, c1) ∈ st3.tables := run_parser_table_mem mid st2 st3 (n, c1) hm2 h2
  have herr := step_table_dup st3 n c1 c2 hm3
  refine ⟨hm3, herr, ?_⟩
  have hrun : run_parser_loop st (pre ++ (.table n c1 :: (mid ++ (.table n c2 :: post)))) =
      .error "failed to parse configfile" :=
    calc run_parser_loop st (pre ++ (.table n c1 :: (mid ++ (.table n c2 :: post))))
        = run_parser_loop st1 (.table n c1 :: (mid ++ (.table n c2 :: post))) :=
          run_parser_append_ok pre st st1 _ h0
      _ = run_parser_loop st2 (mid ++ (.table n c2 :: post)) :=
          run_parser_cons_ok _ _ _ _ h1
      _ = run_parser_loop st3 (.table n c2 :: post) :=
          run_parser_append_ok mid st2 st3 _ h2
      _ = .error "failed to parse configfile" :=
          run_parser_cons_err _ _ _ _ herr
  intro st4 hcontra
  rw [hrun] at hcontra
  exact absurd hcontra (by simp)

/-- Witness for C5: a concrete duplicate table definition. -/
theorem claim_C5_witness :
    ("T1", 0) ∈ ({ gmp := .IGMPv3, tables := [("T1", 0)], instances := [] } :
      conf_state).tables ∧
    run_parser_step { gmp := .IGMPv3, tables := [("T1", 0)], instances := [] }
      (.table "T1" 1) = .error "failed to parse configfile" ∧
    run_parser_loop initial_state
      ([] ++ (.table "T1" 0 :: ([] ++ (.table "T1" 1 :: [])))) ≠
      .ok initial_state :=
  ⟨(claim_C5 initial_state initial_state _ _ [] [] [] "T1" 0 1 rfl rfl rfl).1,
   (claim_C5 initial_state initial_state _ _ [] [] [] "T1" 0 1 rfl rfl rfl).2.1,
   (claim_C5 initial_state initial_state _ _ [] [] [] "T1" 0 1 rfl rfl rfl).2.2
     initial_state⟩

/-- Modelled from the spec: `interfaces::add_interface` collects a
resolved handle into the instance's Resolved Interface Group; duplicate
handles are permitted and must not be rejected, so the addition always
succeeds (the group is kept as a duplicate-free list). -/
def interfaces_add (result : List Nat) (if_index : Nat) : List Nat :=
  if if_index ∈ result then result else result ++ [if_index]

/-- The `add` lambda of `configuration::initalize_interfaces` applied to
one interface name: `if_index = interfaces::get_if_index(name)` (the
external resolver, passed here as the function `resolve`; `0` is
`NOT_FOUND`); a zero handle throws `"unknown interface"`, otherwise the
handle is added to the group. -/
def add_interface_name (resolve : String → Nat) (result : List Nat)
    (if_name : String) : Except String (List Nat) :=
  let if_index := resolve if_name
  if if_index = 0 then .error "unknown interface"
  else .ok (interfaces_add result if_index)

/-- Folding the `add` lambda over a list of interface names (one of the
two `for` loops over `inst->get_downstreams()` / `get_upstreams()`). -/
def add_interface_names (resolve : String → Nat) :
    List Nat → List String → Except String (List Nat)
  | result, [] => .ok result
  | result, nm :: rest =>
      match add_interface_name resolve result nm with
      | .error e => .error e
      | .ok result1 => add_interface_names resolve result1 rest

/-- Processing one instance in `configuration::initalize_interfaces`:
start from a fresh `interfaces` object, add every downstream and then
every upstream interface. -/
def init_instance (resolve : String → Nat) (inst : instance_definition) :
    Except String (List Nat) :=
  match add_interface_names resolve [] inst.downstreams with
  | .error e => .error e
  | .ok r => add_interface_names resolve r inst.upstreams

/-- The loop of `configuration::initalize_interfaces` over
`m_inst_def_set`, accumulating `m_interfaces_map` (association list
keyed by instance name; inserting an existing key throws
`"failed to add instance"`). -/
def initalize_interfaces_aux (resolve : String → Nat) :
    List instance_definition → List (String × List Nat) →
    Except String (List (String × List Nat))
  | [], m => .ok m
  | inst :: rest, m =>
      match init_instance resolve inst with
      | .error e => .error e
      | .ok result =>
          if m.any (fun e => e.1 == inst.instance_name) then
            .error "failed to add instance"
          else
            initalize_interfaces_aux resolve rest (m ++ [(inst.instance_name, result)])

/-- Embedding of `configuration::initalize_interfaces`: the interface-resolution
post-pass (run in production mode only), starting from an empty
instance-to-interfaces map. -/
def initalize_interfaces (resolve : String → Nat)
    (insts : List instance_definition) : Except String (List (String × List Nat)) :=
  initalize_interfaces_aux resolve insts []

theorem mem_interfaces_add (r : List Nat) (i x : Nat)
    (h : x ∈ interfaces_add r i) : x ∈ r ∨ x = i := by
  rw [interfaces_add] at h
  split at h
  · exact Or.inl h
  · rcases List.mem_append.mp h with h | h
    · exact Or.inl h
    · simp at h
      exact Or.inr h

theorem add_names_err (resolve : String → Nat) (l : List String) : ∀ r : List Nat,
    (∃ nm ∈ l, resolve nm = 0) →
    add_interface_names resolve r l = .error "unknown interface" := by
  induction l with
  | nil =>
      intro r hbad
      simp at hbad
  | cons nm rest ih =>
      intro r hbad
      by_cases hm : resolve nm = 0
      · simp [add_interface_names, add_interface_name, hm]
      · obtain ⟨x, hx, hres⟩ := hbad
        have hxr : x ∈ rest := by
          rcases List.mem_cons.mp hx with rfl | hx2
          · exact absurd hres hm
          · exact hx2
        simp only [add_interface_names, add_interface_name]
        simp only [if_neg hm]
        exact ih _ ⟨x, hxr, hres⟩

theorem add_names_ok (resolve : String → Nat) (l : List String) : ∀ r : List Nat,
    (∀ nm ∈ l, resolve nm ≠ 0) →
    ∃ r2, add_interface_names resolve r l = .ok r2 := by
  induction l with
  | nil =>
      intro r _
      exact ⟨r, rfl⟩
  | cons nm rest ih =>
      intro r hgood
      have hm : resolve nm ≠ 0 := hgood nm (by simp)
      obtain ⟨r2, hr2⟩ := ih (interfaces_add r (resolve nm))
        (fun x hx => hgood x (List.mem_cons_of_mem _ hx))
      refine ⟨r2, ?_⟩
      simp only [add_interface_names, add_interface_name]
      simp only [if_neg hm]
      exact hr2

theorem add_names_nonzero (resolve : String → Nat) (l : List String) :
    ∀ r r2 : List Nat, add_interface_names resolve r l = .ok r2 →
    (∀ x ∈ r, x ≠ 0) → ∀ x ∈ r2, x ≠ 0 := by
  induction l with
  | nil =>
      intro r r2 h hr
      cases h
      exact hr
  | cons nm rest ih =>
      intro r r2 h hr
      by_cases hm : resolve nm = 0
      · simp [add_interface_names, add_interface_name, hm] at h
      · simp only [add_interface_names, add_interface_name, if_neg hm] at h
        refine ih _ _ h ?_
        intro x hx
        rcases mem_interfaces_add _ _ _ hx with hx | hx
        · exact hr x hx
        · rw [hx]
          exact hm

theorem init_instance_err (resolve : String → Nat) (inst : instance_definition)
    (hbad : ∃ nm ∈ inst.downstreams ++ inst.upstreams, resolve nm = 0) :
    init_instance resolve inst = .error "unknown interface" := by
  obtain ⟨nm, hmem, hres⟩ := hbad
  rcases List.mem_append.mp hmem with hdown | hup
  · simp [init_instance, add_names_err resolve inst.downstreams [] ⟨nm, hdown, hres⟩]
  · by_cases hd : ∃ nm2 ∈ inst.downstreams, resolve nm2 = 0
    · simp [init_instance, add_names_err resolve inst.downstreams [] hd]
    · push_neg at hd
      obtain ⟨r, hr⟩ := add_names_ok resolve inst.downstreams [] hd
      simp [init_instance, hr, add_names_err resolve inst.upstreams r ⟨nm, hup, hres⟩]

theorem init_instance_ok_nonzero (resolve : String → Nat) (inst : instance_definition)
    (r : List Nat) (h : init_instance resolve inst = .ok r) : ∀ x ∈ r, x ≠ 0 := by
  rw [init_instance] at h
  cases hd : add_interface_names resolve [] inst.downstreams with
  | error e =>
      rw [hd] at h
      simp at h
  | ok r1 =>
      rw [hd] at h
      have h1 : ∀ x ∈ r1, x ≠ 0 :=
        add_names_nonzero resolve inst.downstreams [] r1 hd (by simp)
      exact add_names_nonzero resolve inst.upstreams r1 r h h1

theorem init_instance_ok_of_good (resolve : String → Nat) (inst : instance_definition)
    (hgood : ∀ nm ∈ inst.downstreams ++ inst.upstreams, resolve nm ≠ 0) :
    ∃ r, init_instance resolve inst = .ok r := by
  obtain ⟨r1, h1⟩ := add_names_ok resolve inst.downstreams []
    (fun nm h => hgood nm (List.mem_append_left _ h))
  obtain ⟨r2, h2⟩ := add_names_ok resolve inst.upstreams r1
    (fun nm h => hgood nm (List.mem_append_right _ h))
  exact ⟨r2, by simp [init_instance, h1, h2]⟩

theorem initalize_aux_nonzero (resolve : String → Nat)
    (insts : List instance_definition) : ∀ m m2 : List (String × List Nat),
    initalize_interfaces_aux resolve insts m = .ok m2 →
    (∀ e ∈ m, ∀ x ∈ e.2, x ≠ 0) → ∀ e ∈ m2, ∀ x ∈ e.2, x ≠ 0 := by
  induction insts with
  | nil =>
      intro m m2 h hm
      cases h
      exact hm
  | cons inst rest ih =>
      intro m m2 h hm
      cases hi : init_instance resolve inst with
      | error e =>
          simp [initalize_interfaces_aux, hi] at h
      | ok r =>
          simp only [initalize_interfaces_aux, hi] at h
          split at h
          · simp at h
          · refine ih _ _ h ?_
            intro e he x hx
            rcases List.mem_append.mp he with he2 | he2
            · exact hm e he2 x hx
            · have : e = (inst.instance_name, r) := by simpa using he2
              subst this
              exact init_instance_ok_nonzero resolve inst r hi x hx

/-- Claim C6: processing one instance resolves every downstream and
upstream interface name; a `NOT_FOUND` (zero) handle for any of its
names makes that instance fail with the `"unknown interface"` error (so
it is not activated); whenever an instance — or the whole pass — does
succeed, every stored handle is non-zero. -/
theorem claim_C6 (resolve : String → Nat) (inst : instance_definition)
    (insts : List instance_definition) :
    ((∃ nm ∈ inst.downstreams ++ inst.upstreams, resolve nm = 0) →
      init_instance resolve inst = .error "unknown interface") ∧
    (∀ r, init_instance resolve inst = .ok r → ∀ x ∈ r, x ≠ 0) ∧
    (∀ m, initalize_interfaces resolve insts = .ok m →
      ∀ e ∈ m, ∀ x ∈ e.2, x ≠ 0) := by
  refine ⟨init_instance_err resolve inst, ?_, ?_⟩
  · intro r h
    exact init_instance_ok_nonzero resolve inst r h
  · intro m h
    exact initalize_aux_nonzero resolve insts [] m h (by simp)

/-- A concrete resolver for the witnesses: the name `"bad"` is
unresolvable (`NOT_FOUND`, i.e. 0); every other name resolves to
handle 3. -/
def test_resolve (s : String) : Nat := if s = "bad" then 0 else 3

/-- Witness for C6: an instance with an unresolvable upstream fails; a
resolvable instance yields the non-zero handle 3. -/
theorem claim_C6_witness :
    init_instance test_resolve ⟨"p", ["eth0"], ["bad"]⟩ =
      .error "unknown interface" ∧
    (3 : Nat) ≠ 0 ∧
    ("q", [3]) ∈ [("q", [(3 : Nat)])] :=
  ⟨(claim_C6 test_resolve ⟨"p", ["eth0"], ["bad"]⟩ []).1 (by decide),
   (claim_C6 test_resolve ⟨"q", ["eth0"], []⟩ [⟨"q", ["eth0"], []⟩]).2.2
     [("q", [3])] rfl ("q", [3]) (by simp) 3 (by simp),
   by simp⟩

theorem initalize_aux_err (resolve : String → Nat)
    (insts : List instance_definition) : ∀ m : List (String × List Nat),
    (insts.map (fun i => i.instance_name)).Nodup →
    (∀ inst ∈ insts, ∀ e ∈ m, e.1 ≠ inst.instance_name) →
    (∃ inst ∈ insts, ∃ nm ∈ inst.downstreams ++ inst.upstreams, resolve nm = 0) →
    initalize_interfaces_aux resolve insts m = .error "unknown interface" := by
  induction insts with
  | nil =>
      intro m _ _ hbad
      simp at hbad
  | cons inst rest ih =>
      intro m hnodup hdisj hbad
      by_cases hb : ∃ nm ∈ inst.downstreams ++ inst.upstreams, resolve nm = 0
      · simp [initalize_interfaces_aux, init_instance_err resolve inst hb]
      · have hbad2 : ∃ i2 ∈ rest, ∃ nm ∈ i2.downstreams ++ i2.upstreams,
            resolve nm = 0 := by
          obtain ⟨i2, hi2, hx⟩ := hbad
          rcases List.mem_cons.mp hi2 with rfl | hi2b
          · exact absurd hx hb
          · exact ⟨i2, hi2b, hx⟩
        push_neg at hb
        obtain ⟨r, hr⟩ := init_instance_ok_of_good resolve inst hb
        have hany : m.any (fun e => e.1 == inst.instance_name) = false := by
          rw [List.any_eq_false]
          intro e he
          simpa using hdisj inst (by simp) e he
        rw [initalize_interfaces_aux, hr]
        simp only [hany, Bool.false_eq_true, if_false]
        refine ih _ (List.nodup_cons.mp hnodup).2 ?_ hbad2
        intro i2 hi2 e he
        rcases List.mem_append.mp he with he2 | he2
        · exact hdisj i2 (List.mem_cons_of_mem _ hi2) e he2
        · have he3 : e = (inst.instance_name, r) := by simpa using he2
          subst he3
          have hne : inst.instance_name ∉ rest.map (fun i => i.instance_name) :=
            (List.nodup_cons.mp hnodup).1
          intro hcontra
          simp only at hcontra
          have hmm : i2.instance_name ∈ rest.map (fun i => i.instance_name) :=
            List.mem_map_of_mem _ hi2
          rw [← hcontra] at hmm
          exact hne hmm

/-- Claim C7: interface resolution is atomic over all instances — if
the resolver returns `NOT_FOUND` (zero) for any interface name of any
instance, the whole pass fails with the `"unknown interface"` error and
no instance-to-interfaces map is produced for any instance (the
duplicate-free instance names come from the Instance Set's uniqueness
invariant). -/
theorem claim_C7 (resolve : String → Nat) (insts : List instance_definition)
    (hnodup : (insts.map (fun i => i.instance_name)).Nodup)
    (hbad : ∃ inst ∈ insts, ∃ nm ∈ inst.downstreams ++ inst.upstreams,
      resolve nm = 0) :
    initalize_interfaces resolve insts = .error "unknown interface" ∧
    ∀ m, initalize_interfaces resolve insts ≠ .ok m := by
  have herr := initalize_aux_err resolve insts [] hnodup (by simp) hbad
  refine ⟨herr, ?_⟩
  intro m hcontra
  rw [initalize_interfaces] at hcontra
  rw [herr] at hcontra
  exact absurd hcontra (by simp)

/-- Witness for C7: one unresolvable name makes the whole pass fail,
and no map is exposed. -/
theorem claim_C7_witness :
    initalize_interfaces test_resolve [⟨"p", ["eth0"], ["bad"]⟩] =
      .error "unknown interface" ∧
    initalize_interfaces test_resolve [⟨"p", ["eth0"], ["bad"]⟩] ≠ .ok [] :=
  ⟨(claim_C7 test_resolve [⟨"p", ["eth0"], ["bad"]⟩] (by simp) (by decide)).1,
   (claim_C7 test_resolve [⟨"p", ["eth0"], ["bad"]⟩] (by simp) (by decide)).2 []⟩

theorem tail_dropWhile_shorter (p : Char → Bool) (c : Char) (cs : List Char) :
    (((c :: cs).dropWhile p).tail).length < (c :: cs).length := by
  have := (List.dropWhile_sublist (l := c :: cs) (p := p)).length_le
  simp only [List.length_tail]
  simp only [List.length_cons] at this ⊢
  omega

/-- The `while (std::getline(file, line))` loop of
`configuration::load_file`, modelled on the file's content: `getline`
yields the characters before the next `'\n'` (consuming and discarding
the terminator) and fails once no characters remain. -/
def getline_lines : List Char → List (List Char)
  | [] => []
  | c :: cs =>
      (c :: cs).takeWhile (· != '\n') ::
        getline_lines (((c :: cs).dropWhile (· != '\n')).tail)
termination_by l => l.length
decreasing_by
  exact tail_dropWhile_shorter _ _ _

/-- Embedding of `configuration::load_file`: every extracted line is appended to the
result followed by `std::endl`. -/
def load_file (content : List Char) : List Char :=
  ((getline_lines content).map (fun l => l ++ ['\n'])).flatten

theorem getline_lines_nil : getline_lines [] = [] := by
  conv_lhs => unfold getline_lines

theorem getline_lines_cons (c : Char) (cs : List Char) :
    getline_lines (c :: cs) =
      (c :: cs).takeWhile (· != '\n') ::
        getline_lines (((c :: cs).dropWhile (· != '\n')).tail) := by
  conv_lhs => unfold getline_lines

theorem join_lines_ends_nl (ls : List (List Char)) (h : ls ≠ []) :
    ∃ t, (ls.map (fun l => l ++ ['\n'])).flatten = t ++ ['\n'] := by
  induction ls with
  | nil => exact absurd rfl h
  | cons l rest ih =>
      cases rest with
      | nil =>
          refine ⟨l, ?_⟩
          simp
      | cons l2 rest2 =>
          obtain ⟨t, ht⟩ := ih (by simp)
          refine ⟨l ++ '\n' :: t, ?_⟩
          rw [List.map_cons, List.flatten_cons, ht]
          simp

theorem mem_takeWhile_no_nl (l : List Char) (x : Char)
    (h : x ∈ l.takeWhile (· != '\n')) : ¬x = '\n' := by
  induction l with
  | nil => simp [List.takeWhile] at h
  | cons c cs ih =>
      rw [List.takeWhile_cons] at h
      by_cases hc : (c != '\n') = true
      · rw [if_pos hc] at h
        rcases List.mem_cons.mp h with rfl | h2
        · simpa using hc
        · exact ih h2
      · rw [if_neg hc] at h
        simp at h

/-- Claim C10: `load_file` terminates every line of its output with a
newline, appending one even to a final line with no terminator in the
file; hence for every non-empty readable file the returned text ends in
a newline (the extracted lines themselves never contain one). -/
theorem claim_C10 (content : List Char) (h : content ≠ []) :
    (∀ l ∈ getline_lines content, '\n' ∉ l) ∧
    ∃ t, load_file content = t ++ ['\n'] := by
  constructor
  · intro l hl hnl
    clear h
    revert hl
    induction content using getline_lines.induct with
    | case1 => simp [getline_lines_nil]
    | case2 c cs ih =>
        rw [getline_lines_cons]
        intro hl
        rcases List.mem_cons.mp hl with rfl | h2
        · exact mem_takeWhile_no_nl _ '\n' hnl rfl
        · exact ih h2
  · rw [load_file]
    apply join_lines_ends_nl
    cases content with
    | nil => exact absurd rfl h
    | cons c cs =>
        rw [getline_lines_cons]
        simp

/-- Witness for C10: a one-character file with no trailing terminator. -/
theorem claim_C10_witness :
    (∀ l ∈ getline_lines ['a'], '\n' ∉ l) ∧
    ∃ t, load_file ['a'] = t ++ ['\n'] :=
  claim_C10 ['a'] (by decide)

end Mcproxy
